import Mathlib

/-!
Verification of the Isolation game-playing agent (`src/game_agent.py`).

The file embeds, as Lean functions, the two search engines
(`MinimaxPlayer` and `AlphaBetaPlayer`) and the three evaluation
heuristics (`custom_score`, `custom_score_2`, `custom_score_3`) of the
source, and proves the specified properties about them.

The board (`isolation.Board`) is not part of the repository sources that
the engines live in; the specification treats it as an external
capability (spec §1, §4.1).  It is therefore modelled from the spec as
an abstract game tree whose nodes carry the query data the heuristics
consume, and whose edges are the active player's legal moves together
with the state obtained by forecasting each of them.

Python floats: every arithmetic operation performed by the agent is
exact on small dyadic rationals (halving an integer board dimension,
squaring half-integer differences, integer-valued mobility counts), so
the float computations are modelled by `ℚ` extended with the two
infinities `float("inf")` / `float("-inf")`.
-/

/-- Value domain of the agent: Python floats together with
`float("inf")` and `float("-inf")`. -/
inductive Val : Type where
  | neginf : Val
  | num : ℚ → Val
  | posinf : Val
deriving DecidableEq

namespace Val

/-- The order on `Val`, matching Python float comparison with
infinities. -/
def le : Val → Val → Prop
  | neginf, _ => True
  | _, posinf => True
  | num a, num b => a ≤ b
  | _, _ => False

/-- Decidability of `Val.le`. -/
def decLe : (a b : Val) → Decidable (le a b)
  | neginf, b => isTrue (by cases b <;> exact trivial)
  | num a, num b => if h : a ≤ b then isTrue h else isFalse h
  | num _, posinf => isTrue trivial
  | num _, neginf => isFalse (fun h => h)
  | posinf, posinf => isTrue trivial
  | posinf, num _ => isFalse (fun h => h)
  | posinf, neginf => isFalse (fun h => h)

instance : LinearOrder Val where
  le := le
  le_refl a := by cases a <;> simp [le]
  le_trans a b c h1 h2 := by
    cases a <;> cases b <;> cases c <;> simp_all [le]
    exact h1.trans h2
  le_antisymm a b h1 h2 := by
    cases a <;> cases b <;> simp_all [le]
    exact le_antisymm h1 h2
  le_total a b := by
    cases a <;> cases b <;> simp [le]
    exact le_total _ _
  decidableLE := decLe

end Val

/-- A move: a `(row, column)` coordinate pair.  The no-move sentinel is
`(-1, -1)`. -/
abbrev Move := Int × Int

/-- Modelled from the spec: the per-state query data of the external
Board Capability (`isolation.Board`, spec §4.1) that the evaluation
strategies consume — board dimensions, blank cells, each player's
location, each player's legal moves, and the two terminal predicates
for each player.  Player `true` is the searching agent (`self` in the
source), player `false` its opponent. -/
structure NodeData where
  width : Nat
  height : Nat
  blanks : List (Int × Int)
  loc1 : Int × Int
  loc2 : Int × Int
  legal1 : List (Int × Int)
  legal2 : List (Int × Int)
  loser1 : Bool
  loser2 : Bool
  winner1 : Bool
  winner2 : Bool
deriving DecidableEq

/-- Modelled from the spec: a game state of the external Board
Capability, given as its query data together with, for each legal move
of the active player, the state produced by `forecast_move` (spec §3:
states form an exploration tree produced only by `forecast`). -/
inductive GameTree : Type where
  | node : NodeData → List (Move × GameTree) → GameTree

/-- The forecast edges of a state: the active player's legal moves,
each paired with the state `forecast_move` yields for it. -/
def GameTree.children : GameTree → List (Move × GameTree)
  | node _ ch => ch

/-- The query data of a state. -/
def GameTree.data : GameTree → NodeData
  | node d _ => d

/-- `game.get_legal_moves()` — the active player's legal moves, in the
board's enumeration order. -/
def getLegalMoves (g : GameTree) : List Move :=
  g.children.map Prod.fst

/-- `game.get_legal_moves(player)` — the legal moves of a specific
player (used by the evaluation strategies). -/
def legalMovesFor (g : GameTree) (p : Bool) : List Move :=
  if p then g.data.legal1 else g.data.legal2

/-- `game.is_loser(player)`. -/
def isLoser (g : GameTree) (p : Bool) : Bool :=
  if p then g.data.loser1 else g.data.loser2

/-- `game.is_winner(player)`. -/
def isWinner (g : GameTree) (p : Bool) : Bool :=
  if p then g.data.winner1 else g.data.winner2

/-- `game.get_blank_spaces()`. -/
def getBlankSpaces (g : GameTree) : List (Int × Int) :=
  g.data.blanks

/-- `game.get_player_location(player)`. -/
def getPlayerLocation (g : GameTree) (p : Bool) : Int × Int :=
  if p then g.data.loc1 else g.data.loc2

/-- `game.get_opponent(player)`. -/
def getOpponent (p : Bool) : Bool := !p

/-- A coordinate pair of integers viewed as a pair of rationals (Python
compares integer tuples and float tuples by value). -/
def ratPair (x : Int × Int) : ℚ × ℚ := ((x.1 : ℚ), (x.2 : ℚ))

/-! ## Evaluation strategies (`custom_score`, `custom_score_2`,
`custom_score_3` of `src/game_agent.py`) -/

mutual

/-- `longestPath` — the inner helper of `custom_score`
(`src/game_agent.py` lines 42-51), embedded as written: the value of
each recursive call in the `for` loop is computed and then discarded
(the source never uses the call's return value), and the function
returns the local `longest` after the `if path > longest` update.  The
recursion forecasts each legal move of `player`; `forecast_move` is
defined by the Board contract only for legal moves of the active
player (spec §4.1), so the recursion descends into exactly the
forecast edges whose move is in `get_legal_moves(player)`. -/
def longestPath (p : Bool) : GameTree → Nat → Nat → Nat
  | .node d ch, path, longest =>
    let moves := if p then d.legal1 else d.legal2
    let longest1 := if longest < path then path else longest
    let _ := longestPathKids p moves ch (path + 1) longest1
    longest1
termination_by g _ _ => sizeOf g

/-- The discarded recursive calls of `longestPath`'s `for` loop, one per
forecast edge whose move is a legal move of `p`. -/
def longestPathKids (p : Bool) (moves : List Move) :
    List (Move × GameTree) → Nat → Nat → List Nat
  | [], _, _ => []
  | (m, c) :: rest, path1, longest1 =>
    (if m ∈ moves then longestPath p c path1 longest1 else 0) ::
      longestPathKids p moves rest path1 longest1
termination_by l _ _ => sizeOf l

end

mutual

/-- Modelled from the spec: the longest move-sequence length reachable
by player `p` — "recursively exploring every legal-move branch until
none remain, returning the maximum path length seen" (spec §4.4).
This is what `custom_score`'s late-game branch is specified to
compute; it is the reference against which the source `longestPath`
is compared. -/
def specLongestPath (p : Bool) : GameTree → Nat
  | .node d ch =>
    specLongestPathKids p (if p then d.legal1 else d.legal2) ch

/-- Maximum, over the forecast edges whose move is legal for `p`, of
one plus the longest path from the forecast state. -/
def specLongestPathKids (p : Bool) (moves : List Move) :
    List (Move × GameTree) → Nat
  | [] => 0
  | (m, c) :: rest =>
    max (if m ∈ moves then 1 + specLongestPath p c else 0)
      (specLongestPathKids p moves rest)

end

/-- `custom_score` (`src/game_agent.py` lines 9-58): the phase-aware
strategy.  Terminal checks first; in the late game (fewer than 15
blank spaces) it returns the difference of the two `longestPath`
results, otherwise own mobility minus twice the opponent's. -/
def custom_score (g : GameTree) (p : Bool) : Val :=
  if isLoser g p then Val.neginf
  else if isWinner g p then Val.posinf
  else
    let game_phase : Nat := (getBlankSpaces g).length
    let max_phase : Nat := g.data.width * g.data.height
    if game_phase < 15 then
      let _game_phase : Nat :=
        ((game_phase : Int) - (max_phase : Int)).natAbs
      Val.num (((longestPath p g 0 0 : Int) -
        (longestPath (getOpponent p) g 0 0 : Int) : Int))
    else
      Val.num (((legalMovesFor g p).length : ℚ) -
        2 * ((legalMovesFor g (getOpponent p)).length : ℚ))

/-- `custom_score_2` (`src/game_agent.py` lines 61-91): the
mobility-difference strategy. -/
def custom_score_2 (g : GameTree) (p : Bool) : Val :=
  if isLoser g p then Val.neginf
  else if isWinner g p then Val.posinf
  else
    Val.num (((legalMovesFor g p).length : ℚ) -
      2 * ((legalMovesFor g (getOpponent p)).length : ℚ))

/-- `custom_score_3` (`src/game_agent.py` lines 94-152): the positional
strategy.  The centre is the float pair `(width / 2, height / 2)`;
locations are integer pairs, compared with the centre by value, as
Python compares `(3, 3) == (3.0, 3.0)`. -/
def custom_score_3 (g : GameTree) (p : Bool) : Val :=
  if isLoser g p then Val.neginf
  else if isWinner g p then Val.posinf
  else
    let game_phase : Nat := (getBlankSpaces g).length
    let center : ℚ × ℚ := ((g.data.width : ℚ) / 2, (g.data.height : ℚ) / 2)
    let opponent := getOpponent p
    let loc_player := getPlayerLocation g p
    let loc_opponent := getPlayerLocation g opponent
    let trueCentre : Bool := g.data.width % 2 ≠ 0 ∧ g.data.height % 2 ≠ 0
    let loc_mirror : Int × Int :=
      (|loc_player.1 - ((g.data.width : Int) - 1)|,
       |loc_player.2 - ((g.data.width : Int) - 1)|)
    if ratPair loc_player = center then Val.posinf
    else if ratPair loc_opponent = center ∧
        ratPair loc_player ∈
          ([(-2, -1), (-2, 1), (-1, -2), (-1, 2),
            (1, -2), (1, 2), (2, -1), (2, 1)] : List (ℚ × ℚ)).map
            (fun dd => (center.1 + dd.1, center.2 + dd.2)) then
      Val.neginf
    else if trueCentre ∧
        center ∉ (getBlankSpaces g).map ratPair ∧
        loc_opponent = loc_mirror ∧
        (legalMovesFor g p).length = (legalMovesFor g opponent).length then
      Val.posinf
    else
      let w := center.1
      let h := center.2
      let y : ℚ := loc_player.1
      let x : ℚ := loc_player.2
      let dist : ℚ := (h - y) ^ 2 + (w - x) ^ 2
      Val.num ((((legalMovesFor g p).length : ℚ) -
        2 * ((legalMovesFor g opponent).length : ℚ) - dist) *
        (game_phase : ℚ))

/-! ## Time budget and the cancellation signal -/

/-- Result of a computation that threads the count of time-budget
queries made so far and may be aborted: `.error ()` is a raised
`SearchTimeout` propagating upwards, `.ok (a, t)` a normal return with
`t` queries consumed in total. -/
abbrev MRes (α : Type) : Type := Except Unit (α × Nat)

/-- One `self.time_left() < self.TIMER_THRESHOLD` check: `tb t` is the
value the time-budget query returns on its `t`-th call (spec §3:
TimeBudget is a query handle supplied per call), `th` the configured
`TIMER_THRESHOLD`.  Raises `SearchTimeout` exactly when the query
reports below the threshold. -/
def checkTime (tb : Nat → ℚ) (th : ℚ) (t : Nat) : Except Unit Nat :=
  if tb t < th then .error () else .ok (t + 1)

section Engines

variable (score : GameTree → Val) (tb : Nat → ℚ) (th : ℚ)

/-! ### `MinimaxPlayer` (`src/game_agent.py` lines 184-280) -/

variable (depth : Nat)

mutual

/-- `min_value` of `MinimaxPlayer.minimax` (lines 254-265): time check
on entry, evaluate `self.score` when the traversed depth equals the
cutoff, otherwise fold `min` over the legal moves starting from
`float("inf")`. -/
def mmMin : GameTree → Nat → Nat → MRes Val
  | .node d ch, td, t =>
    match checkTime tb th t with
    | .error _ => .error ()
    | .ok t1 =>
      if td = depth then .ok (score (.node d ch), t1)
      else mmMinFold ch Val.posinf (td + 1) t1
termination_by g _ _ => sizeOf g

/-- The `for m in game.get_legal_moves()` loop of `min_value`: a time
check, then `v = min(v, max_value(game.forecast_move(m), traversed_depth))`
for each move in order. -/
def mmMinFold : List (Move × GameTree) → Val → Nat → Nat → MRes Val
  | [], v, _, t => .ok (v, t)
  | (_, c) :: rest, v, td1, t =>
    match checkTime tb th t with
    | .error _ => .error ()
    | .ok t1 =>
      match mmMax c td1 t1 with
      | .error _ => .error ()
      | .ok (w, t2) => mmMinFold rest (min v w) td1 t2
termination_by l _ _ _ => sizeOf l

/-- `max_value` of `MinimaxPlayer.minimax` (lines 267-278). -/
def mmMax : GameTree → Nat → Nat → MRes Val
  | .node d ch, td, t =>
    match checkTime tb th t with
    | .error _ => .error ()
    | .ok t1 =>
      if td = depth then .ok (score (.node d ch), t1)
      else mmMaxFold ch Val.neginf (td + 1) t1
termination_by g _ _ => sizeOf g

/-- The move loop of `max_value`. -/
def mmMaxFold : List (Move × GameTree) → Val → Nat → Nat → MRes Val
  | [], v, _, t => .ok (v, t)
  | (_, c) :: rest, v, td1, t =>
    match checkTime tb th t with
    | .error _ => .error ()
    | .ok t1 =>
      match mmMin c td1 t1 with
      | .error _ => .error ()
      | .ok (w, t2) => mmMaxFold rest (max v w) td1 t2
termination_by l _ _ _ => sizeOf l

end

/-- The scan performed by
`max(game.get_legal_moves(), key=lambda m: min_value(game.forecast_move(m)))`
(line 280) after its first element: CPython's `max` evaluates the key
left to right and keeps the first element whose key is strictly
greater than the best so far. -/
def mmRootFold : List (Move × GameTree) → Move → Val → Nat → MRes Move
  | [], best, _, t => .ok (best, t)
  | (m, c) :: rest, best, bestv, t =>
    match mmMin score tb th depth c 1 t with
    | .error _ => .error ()
    | .ok (v, t1) =>
      if bestv < v then mmRootFold rest m v t1
      else mmRootFold rest best bestv t1

/-- `MinimaxPlayer.minimax` (line 280).  The empty-move branch is
unreachable from `get_move`, which returns the sentinel before calling
`minimax` (CPython's `max` would raise on an empty sequence). -/
def mmRoot (g : GameTree) (t : Nat) : MRes Move :=
  match g.children with
  | [] => .ok (((-1 : Int), (-1 : Int)), t)
  | (m, c) :: rest =>
    match mmMin score tb th depth c 1 t with
    | .error _ => .error ()
    | .ok (v, t1) => mmRootFold score tb th depth rest m v t1

/-- `MinimaxPlayer.get_move` (lines 215-232): sentinel on no legal
moves, otherwise run `minimax` and fall back to the first legal move
when `SearchTimeout` is caught. -/
def mmGetMove (g : GameTree) : Move :=
  match getLegalMoves g with
  | [] => ((-1 : Int), (-1 : Int))
  | m0 :: _ =>
    match mmRoot score tb th depth g 0 with
    | .ok (mv, _) => mv
    | .error _ => m0

/-! ### `AlphaBetaPlayer` (`src/game_agent.py` lines 283-396) -/

mutual

/-- `min_value` of `AlphaBetaPlayer.alphabeta` (lines 362-373): time
check on entry, evaluate `self.score` at depth zero or when no legal
moves remain, otherwise the pruning fold. -/
def abMin : GameTree → Nat → Val → Val → Nat → MRes Val
  | .node d ch, dep, alpha, beta, t =>
    match checkTime tb th t with
    | .error _ => .error ()
    | .ok t1 =>
      if dep = 0 ∨ ch.isEmpty then .ok (score (.node d ch), t1)
      else abMinFold ch dep Val.posinf alpha beta t1
termination_by g _ _ _ _ => sizeOf g

/-- The move loop of alpha-beta `min_value`:
`v = min(v, max_value(...)); if v <= alpha: return v; beta = min(beta, v)`. -/
def abMinFold : List (Move × GameTree) → Nat → Val → Val → Val → Nat → MRes Val
  | [], _, v, _, _, t => .ok (v, t)
  | (_, c) :: rest, dep, v, alpha, beta, t =>
    match abMax c (dep - 1) alpha beta t with
    | .error _ => .error ()
    | .ok (w, t1) =>
      let v1 := min v w
      if v1 ≤ alpha then .ok (v1, t1)
      else abMinFold rest dep v1 alpha (min beta v1) t1
termination_by l _ _ _ _ _ => sizeOf l

/-- `max_value` of `AlphaBetaPlayer.alphabeta` (lines 375-386). -/
def abMax : GameTree → Nat → Val → Val → Nat → MRes Val
  | .node d ch, dep, alpha, beta, t =>
    match checkTime tb th t with
    | .error _ => .error ()
    | .ok t1 =>
      if dep = 0 ∨ ch.isEmpty then .ok (score (.node d ch), t1)
      else abMaxFold ch dep Val.neginf alpha beta t1
termination_by g _ _ _ _ => sizeOf g

/-- The move loop of alpha-beta `max_value`:
`v = max(v, min_value(...)); if v >= beta: return v; alpha = max(alpha, v)`. -/
def abMaxFold : List (Move × GameTree) → Nat → Val → Val → Val → Nat → MRes Val
  | [], _, v, _, _, t => .ok (v, t)
  | (_, c) :: rest, dep, v, alpha, beta, t =>
    match abMin c (dep - 1) alpha beta t with
    | .error _ => .error ()
    | .ok (w, t1) =>
      let v1 := max v w
      if beta ≤ v1 then .ok (v1, t1)
      else abMaxFold rest dep v1 (max alpha v1) beta t1
termination_by l _ _ _ _ _ => sizeOf l

end

/-- The root move scan of `AlphaBetaPlayer.alphabeta` (lines 388-396):
`best_val = -inf`, `best_move = (-1, -1)`, strict improvement test,
and `alpha = max(alpha, best_val)` after every candidate. -/
def abRootFold : List (Move × GameTree) → Nat → Move → Val → Val → Val → Nat →
    MRes Move
  | [], _, best, _, _, _, t => .ok (best, t)
  | (m, c) :: rest, dep, best, bestv, alpha, beta, t =>
    match abMin score tb th c (dep - 1) alpha beta t with
    | .error _ => .error ()
    | .ok (v, t1) =>
      if bestv < v then abRootFold rest dep m v (max alpha v) beta t1
      else abRootFold rest dep best bestv (max alpha bestv) beta t1

/-- `AlphaBetaPlayer.alphabeta` called as from `get_move`, with the
default window `alpha = -inf`, `beta = +inf` (line 336). -/
def abRoot (g : GameTree) (dep : Nat) (t : Nat) : MRes Move :=
  abRootFold score tb th g.children dep ((-1 : Int), (-1 : Int)) Val.neginf
    Val.neginf Val.posinf t

/-- The iterative-deepening `while` loop of `AlphaBetaPlayer.get_move`
(lines 323-331).  Each iteration queries the budget once for the
`while(self.time_left()>self.TIMER_THRESHOLD)` test, then runs
`alphabeta`; a completed iteration replaces `best_move`, a raised
`SearchTimeout` returns `last_move`, the best move of the previous
completed iteration.  `fuel` bounds the number of iterations modelled;
the Python loop itself terminates only when the budget eventually
falls to the threshold, and every theorem below holds for every
sufficiently large `fuel`. -/
def abLoop (g : GameTree) : Nat → Move → Nat → Nat → Move
  | 0, best, _, _ => best
  | fuel + 1, best, dep, t =>
    if th < tb t then
      match abRoot score tb th g dep (t + 1) with
      | .ok (m, t1) => abLoop g fuel m (dep + 1) t1
      | .error _ => best
    else best

/-- `AlphaBetaPlayer.get_move` (lines 314-334): sentinel on no legal
moves, otherwise the iterative-deepening loop started at depth 1 with
the first legal move as fallback. -/
def abGetMove (g : GameTree) (fuel : Nat) : Move :=
  match getLegalMoves g with
  | [] => ((-1 : Int), (-1 : Int))
  | m0 :: _ => abLoop score tb th g fuel m0 1 0

/-- State of the iterative-deepening loop after `n` further completed
iterations from best move `best`, depth `dep` and query counter `t`:
`some (m, t1)` when all `n` iterations run the `while` test, pass it
and complete their `alphabeta` call, `none` otherwise. -/
def loopSteps (g : GameTree) : Nat → Move → Nat → Nat → Option (Move × Nat)
  | 0, best, _, t => some (best, t)
  | n + 1, _best, dep, t =>
    if th < tb t then
      match abRoot score tb th g dep (t + 1) with
      | .ok (m, t1) => loopSteps g n m (dep + 1) t1
      | .error _ => none
    else none

end Engines

/-! ## Pure mirrors of the two recursions

The monadic definitions above are the faithful embeddings, clock
included.  The following definitions are the same recursions with the
time checks erased; bridge theorems below prove that under an ample
budget (no query ever reports below the threshold) each engine
computes exactly its pure mirror. -/

section Pure

variable (score : GameTree → Val) (depth : Nat)

mutual

/-- `min_value` of `MinimaxPlayer.minimax` with the time checks
erased. -/
def mmMinP : GameTree → Nat → Val
  | .node d ch, td =>
    if td = depth then score (.node d ch)
    else mmMinFoldP ch Val.posinf (td + 1)
termination_by g _ => sizeOf g

/-- The move loop of pure `min_value`. -/
def mmMinFoldP : List (Move × GameTree) → Val → Nat → Val
  | [], v, _ => v
  | (_, c) :: rest, v, td1 => mmMinFoldP rest (min v (mmMaxP c td1)) td1
termination_by l _ _ => sizeOf l

/-- `max_value` of `MinimaxPlayer.minimax` with the time checks
erased. -/
def mmMaxP : GameTree → Nat → Val
  | .node d ch, td =>
    if td = depth then score (.node d ch)
    else mmMaxFoldP ch Val.neginf (td + 1)
termination_by g _ => sizeOf g

/-- The move loop of pure `max_value`. -/
def mmMaxFoldP : List (Move × GameTree) → Val → Nat → Val
  | [], v, _ => v
  | (_, c) :: rest, v, td1 => mmMaxFoldP rest (max v (mmMinP c td1)) td1
termination_by l _ _ => sizeOf l

end

/-- The root scan of `MinimaxPlayer.minimax` with the time checks
erased, returning the selected move together with its key (the backed
up value of the selected move). -/
def mmRootFoldP : List (Move × GameTree) → Move → Val → Move × Val
  | [], best, bestv => (best, bestv)
  | (m, c) :: rest, best, bestv =>
    let v := mmMinP score depth c 1
    if bestv < v then mmRootFoldP rest m v
    else mmRootFoldP rest best bestv

/-- Pure `MinimaxPlayer.minimax`: CPython `max` seeds with the first
element and its key. -/
def mmRootP (g : GameTree) : Move × Val :=
  match g.children with
  | [] => (((-1 : Int), (-1 : Int)), Val.neginf)
  | (m, c) :: rest => mmRootFoldP score depth rest m (mmMinP score depth c 1)

mutual

/-- `min_value` of `AlphaBetaPlayer.alphabeta` with the time checks
erased. -/
def abMinP : GameTree → Nat → Val → Val → Val
  | .node d ch, dep, alpha, beta =>
    if dep = 0 ∨ ch.isEmpty then score (.node d ch)
    else abMinFoldP ch dep Val.posinf alpha beta
termination_by g _ _ _ => sizeOf g

/-- The pruning move loop of pure alpha-beta `min_value`. -/
def abMinFoldP : List (Move × GameTree) → Nat → Val → Val → Val → Val
  | [], _, v, _, _ => v
  | (_, c) :: rest, dep, v, alpha, beta =>
    let v1 := min v (abMaxP c (dep - 1) alpha beta)
    if v1 ≤ alpha then v1
    else abMinFoldP rest dep v1 alpha (min beta v1)
termination_by l _ _ _ _ => sizeOf l

/-- `max_value` of `AlphaBetaPlayer.alphabeta` with the time checks
erased. -/
def abMaxP : GameTree → Nat → Val → Val → Val
  | .node d ch, dep, alpha, beta =>
    if dep = 0 ∨ ch.isEmpty then score (.node d ch)
    else abMaxFoldP ch dep Val.neginf alpha beta
termination_by g _ _ _ => sizeOf g

/-- The pruning move loop of pure alpha-beta `max_value`. -/
def abMaxFoldP : List (Move × GameTree) → Nat → Val → Val → Val → Val
  | [], _, v, _, _ => v
  | (_, c) :: rest, dep, v, alpha, beta =>
    let v1 := max v (abMinP c (dep - 1) alpha beta)
    if beta ≤ v1 then v1
    else abMaxFoldP rest dep v1 (max alpha v1) beta
termination_by l _ _ _ _ => sizeOf l

end

/-- The root scan of `AlphaBetaPlayer.alphabeta` with the time checks
erased, returning the selected move together with the final `best_val`
(the backed-up value of the scan). -/
def abRootFoldP : List (Move × GameTree) → Nat → Move → Val → Val → Val →
    Move × Val
  | [], _, best, bestv, _, _ => (best, bestv)
  | (m, c) :: rest, dep, best, bestv, alpha, beta =>
    let v := abMinP score c (dep - 1) alpha beta
    if bestv < v then abRootFoldP rest dep m v (max alpha v) beta
    else abRootFoldP rest dep best bestv (max alpha bestv) beta

/-- Pure `AlphaBetaPlayer.alphabeta` with the default window. -/
def abRootP (g : GameTree) (dep : Nat) : Move × Val :=
  abRootFoldP score g.children dep ((-1 : Int), (-1 : Int)) Val.neginf
    Val.neginf Val.posinf

mutual

/-- The plain (unpruned) minimax value with the alpha-beta engine's
leaf rule: evaluate the score at depth zero or when no legal moves
remain; otherwise the min of the children's max-values. -/
def mvalMin : GameTree → Nat → Val
  | .node d ch, dep =>
    if dep = 0 ∨ ch.isEmpty then score (.node d ch)
    else mvalMinList ch dep
termination_by g _ => sizeOf g

/-- Minimum of the children's max-values. -/
def mvalMinList : List (Move × GameTree) → Nat → Val
  | [], _ => Val.posinf
  | (_, c) :: rest, dep => min (mvalMax c (dep - 1)) (mvalMinList rest dep)
termination_by l _ => sizeOf l

/-- The plain minimax value, maximizing layer. -/
def mvalMax : GameTree → Nat → Val
  | .node d ch, dep =>
    if dep = 0 ∨ ch.isEmpty then score (.node d ch)
    else mvalMaxList ch dep
termination_by g _ => sizeOf g

/-- Maximum of the children's min-values. -/
def mvalMaxList : List (Move × GameTree) → Nat → Val
  | [], _ => Val.neginf
  | (_, c) :: rest, dep => max (mvalMin c (dep - 1)) (mvalMaxList rest dep)
termination_by l _ => sizeOf l

end

end Pure

section TerminalConsistency

variable (score : GameTree → Val)

mutual

/-- The evaluation strategy recognises won and lost states (spec §4.2:
"the evaluation strategy itself is responsible for recognizing
won/lost states and returning ±infinity"): at every node of the tree,
taken with the parity at which the search reaches it (`isMax = true`
iff the searching agent is to move), a node with no legal moves is
scored `-inf` on maximizing parity (the agent is stuck and has lost)
and `+inf` on minimizing parity (the opponent is stuck). -/
def termCons : Bool → GameTree → Bool
  | isMax, .node d ch =>
    (if ch.isEmpty then
      decide (score (.node d ch) = if isMax then Val.neginf else Val.posinf)
    else true) && termConsList (!isMax) ch
termination_by _ g => sizeOf g

/-- `termCons` for every child of a node. -/
def termConsList : Bool → List (Move × GameTree) → Bool
  | _, [] => true
  | isMax, (_, c) :: rest => termCons isMax c && termConsList isMax rest
termination_by _ l => sizeOf l

end

end TerminalConsistency

/-! ## Remaining definitions: budgets, helpers, and concrete states -/

/-- An ample time budget: no query ever reports below the threshold, so
no timeout fires (the hypothesis of the minimax/alpha-beta equivalence
property, spec §8). -/
def Ample (tb : Nat → ℚ) (th : ℚ) : Prop := ∀ t, ¬ tb t < th

/-- The maximum of the minimax keys `min_value(forecast_move(m))` over
a list of forecast edges — the backed-up value the minimax root scan
maximises. -/
def keysMax (score : GameTree → Val) (depth : Nat) :
    List (Move × GameTree) → Val
  | [] => Val.neginf
  | (_, c) :: rest => max (mmMinP score depth c 1) (keysMax score depth rest)

/-- A 7×7 near-end-game node datum used as the base of the concrete
states below. -/
def baseData : NodeData :=
  { width := 7, height := 7, blanks := [(0, 0), (0, 1)],
    loc1 := (2, 2), loc2 := (4, 4),
    legal1 := [(1, 1)], legal2 := [(3, 3)],
    loser1 := false, loser2 := false, winner1 := false, winner2 := false }

/-- A state in which the searching agent is to move and has no legal
moves: it has lost, the opponent has won. -/
def treeLoseLeaf : GameTree :=
  .node
    { baseData with
      loc1 := (6, 6)
      legal1 := []
      loser1 := true
      winner2 := true } []

/-- The state after the agent's only move `(2, 2)`: the opponent's only
reply `(4, 3)` traps the agent. -/
def treeLoseMid : GameTree :=
  .node { baseData with legal2 := [(4, 3)] }
    [(((4 : Int), (3 : Int)), treeLoseLeaf)]

/-- A forced-loss state: the agent has exactly one legal move `(2, 2)`,
and after the opponent's forced reply the agent is trapped.  Every
line of play loses within two plies. -/
def treeLose : GameTree :=
  .node { baseData with legal1 := [(2, 2)] }
    [(((2 : Int), (2 : Int)), treeLoseMid)]

/-- A budget whose first five queries are ample and which then expires:
depth iterations 1 and 2 of the iterative-deepening loop complete and
the loop test then fails. -/
def tbC1 : Nat → ℚ := fun t => if t ≤ 4 then 100 else 0

/-- A budget whose first three queries are ample and which then
expires: depth iteration 1 completes and iteration 2 is aborted by
`SearchTimeout` at its first time check. -/
def tbC3 : Nat → ℚ := fun t => if t ≤ 2 then 100 else 0

/-- A budget that reports below the threshold on the very first
query. -/
def tbLow : Nat → ℚ := fun _ => 0

/-- A budget that always reports far above the threshold. -/
def tbAmple : Nat → ℚ := fun _ => 100

/-- A late-game state for the longest-path comparison: the agent can
play `(5, 4)` and then `(5, 5)` (longest path 2), the trapped opponent
has no moves anywhere (longest path 0). -/
def treeLP0 : GameTree :=
  .node { baseData with loc1 := (5, 5), legal1 := [], legal2 := [] } []

/-- Intermediate state of the longest-path chain: one further agent
move `(5, 5)` remains. -/
def treeLP1 : GameTree :=
  .node { baseData with loc1 := (5, 4), legal1 := [(5, 5)], legal2 := [] }
    [(((5 : Int), (5 : Int)), treeLP0)]

/-- Root of the longest-path chain: the agent's moves form the chain
`(5, 4)`, `(5, 5)`; the opponent has no legal moves. -/
def treeLP2 : GameTree :=
  .node { baseData with legal1 := [(5, 4)], legal2 := [] }
    [(((5 : Int), (4 : Int)), treeLP1)]

/-- A non-terminal 7×7 state with the agent on the exact centre cell
`(3, 3)` of the board and the opponent at `(0, 0)`. -/
def treeCenter7 : GameTree :=
  .node
    { baseData with
      loc1 := (3, 3)
      loc2 := (0, 0)
      blanks := [(0, 1), (1, 1), (2, 1)] } []

/-- A non-terminal 6×6 state with the agent at `(3, 3)`, which equals
the float centre `(6 / 2, 6 / 2)` exactly. -/
def treeCenter6 : GameTree :=
  .node
    { baseData with
      width := 6
      height := 6
      loc1 := (3, 3)
      loc2 := (0, 0) } []

/-- A state in which the agent has already lost. -/
def treeLost : GameTree := .node { baseData with loser1 := true } []

/-- A state in which the agent has already won. -/
def treeWon : GameTree := .node { baseData with winner1 := true } []

/-- Depth-one equivalence example, left leaf: the agent is trapped two
plies down the first root move. -/
def treeC4L : GameTree :=
  .node { baseData with legal1 := [] } []

/-- Depth-one equivalence example, first root child (two agent moves
available there, heuristic key 2). -/
def treeC4A : GameTree :=
  .node { baseData with legal1 := [(0, 3), (0, 5)] }
    [(((5 : Int), (5 : Int)), treeC4L)]

/-- Depth-one equivalence example, second root child (one agent move
available there, heuristic key 1). -/
def treeC4B : GameTree :=
  .node { baseData with legal1 := [(0, 4)] }
    [(((5 : Int), (6 : Int)), treeC4L)]

/-- Depth-one equivalence example, root: two moves, whose children have
keys 2 and 1. -/
def treeC4R : GameTree :=
  .node { baseData with legal1 := [(0, 1), (0, 2)] }
    [(((0 : Int), (1 : Int)), treeC4A), (((0 : Int), (2 : Int)), treeC4B)]

/-- A terminal-consistent evaluation for the equivalence example: a
stuck node scores `-inf` (only maximizing-parity nodes are stuck in
the example), every other node its mobility count. -/
def scoreC4 (g : GameTree) : Val :=
  if g.children.isEmpty then Val.neginf
  else Val.num ((g.data.legal1.length : ℚ))

/-! ## Theorems -/

theorem Val.le_def (a b : Val) : (a ≤ b) ↔ Val.le a b := Iff.rfl

theorem Val.lt_def (a b : Val) : (a < b) ↔ (Val.le a b ∧ ¬ Val.le b a) :=
  lt_iff_le_not_le

theorem Val.neginf_le (v : Val) : Val.neginf ≤ v := by
  cases v <;> exact trivial

theorem Val.le_posinf (v : Val) : v ≤ Val.posinf := by
  cases v <;> exact trivial

theorem Val.le_neginf {v : Val} (h : v ≤ Val.neginf) : v = Val.neginf := by
  cases v
  · rfl
  · exact absurd h (fun hh => hh)
  · exact absurd h (fun hh => hh)

theorem Val.posinf_le {v : Val} (h : Val.posinf ≤ v) : v = Val.posinf := by
  cases v
  · exact absurd h (fun hh => hh)
  · exact absurd h (fun hh => hh)
  · rfl

theorem Val.min_posinf (v : Val) : min Val.posinf v = v :=
  min_eq_right (Val.le_posinf v)

theorem Val.max_neginf (v : Val) : max Val.neginf v = v :=
  max_eq_right (Val.neginf_le v)

theorem mmMin_timeout (score : GameTree → Val) (tb : Nat → ℚ) (th : ℚ)
    (depth : Nat) (g : GameTree) (td t : Nat) (h : tb t < th) :
    mmMin score tb th depth g td t = .error () := by
  obtain ⟨d, ch⟩ := g
  simp [mmMin, checkTime, h]

theorem mmMax_timeout (score : GameTree → Val) (tb : Nat → ℚ) (th : ℚ)
    (depth : Nat) (g : GameTree) (td t : Nat) (h : tb t < th) :
    mmMax score tb th depth g td t = .error () := by
  obtain ⟨d, ch⟩ := g
  simp [mmMax, checkTime, h]

theorem abMin_timeout (score : GameTree → Val) (tb : Nat → ℚ) (th : ℚ)
    (g : GameTree) (dep : Nat) (a b : Val) (t : Nat) (h : tb t < th) :
    abMin score tb th g dep a b t = .error () := by
  obtain ⟨d, ch⟩ := g
  simp [abMin, checkTime, h]

theorem abMax_timeout (score : GameTree → Val) (tb : Nat → ℚ) (th : ℚ)
    (g : GameTree) (dep : Nat) (a b : Val) (t : Nat) (h : tb t < th) :
    abMax score tb th g dep a b t = .error () := by
  obtain ⟨d, ch⟩ := g
  simp [abMax, checkTime, h]

/-- Claim C8: for every state with zero legal moves, both
`MinimaxPlayer.get_move` and `AlphaBetaPlayer.get_move` return the
no-move sentinel `(-1, -1)` immediately, for every configured
evaluation strategy, every time budget and every iteration bound —
in particular without consulting the strategy and without starting
any recursion. -/
theorem claim_C8 (score : GameTree → Val) (tb : Nat → ℚ) (th : ℚ)
    (depth fuel : Nat) (g : GameTree) (h : getLegalMoves g = []) :
    mmGetMove score tb th depth g = ((-1 : Int), (-1 : Int)) ∧
    abGetMove score tb th g fuel = ((-1 : Int), (-1 : Int)) := by
  constructor
  · simp [mmGetMove, h]
  · simp [abGetMove, h]

/-- Claim C8, witness: a concrete stuck state. -/
theorem claim_C8_witness :
    getLegalMoves treeLoseLeaf = [] ∧
    mmGetMove (fun g => custom_score g true) tbAmple 10 3 treeLoseLeaf =
      ((-1 : Int), (-1 : Int)) ∧
    abGetMove (fun g => custom_score g true) tbAmple 10 treeLoseLeaf 5 =
      ((-1 : Int), (-1 : Int)) := by
  refine ⟨by simp [getLegalMoves, treeLoseLeaf, GameTree.children], ?_⟩
  have h := claim_C8 (fun g => custom_score g true) tbAmple 10 3 5 treeLoseLeaf
    (by simp [getLegalMoves, treeLoseLeaf, GameTree.children])
  exact h

/-- Claim C7: for every state with at least one legal move and every
time budget whose very first query reports below the threshold, both
engines return the first element of the state's legal-move list:
minimax raises `SearchTimeout` at the first `min_value` entry check
and falls back, and the alpha-beta `while` test fails before any
iteration. -/
theorem claim_C7 (score : GameTree → Val) (tb : Nat → ℚ) (th : ℚ)
    (depth fuel : Nat) (g : GameTree) (m0 : Move) (rest : List Move)
    (hlm : getLegalMoves g = m0 :: rest) (h0 : tb 0 < th) :
    mmGetMove score tb th depth g = m0 ∧
    abGetMove score tb th g fuel = m0 := by
  constructor
  · obtain ⟨d, ch⟩ := g
    simp only [getLegalMoves, GameTree.children] at hlm
    cases ch with
    | nil => simp at hlm
    | cons hd tl =>
      obtain ⟨m, c⟩ := hd
      simp only [List.map_cons, List.cons.injEq] at hlm
      simp [mmGetMove, getLegalMoves, GameTree.children, hlm.1, hlm.2,
        mmRoot, mmMin_timeout _ _ _ _ _ _ _ h0]
  · simp only [abGetMove, hlm]
    cases fuel with
    | zero => simp [abLoop]
    | succ f => simp [abLoop, not_lt_of_lt h0]

/-- Claim C7, witness: a concrete state and an immediately-expired
budget. -/
theorem claim_C7_witness :
    getLegalMoves treeLose = [((2 : Int), (2 : Int))] ∧
    tbLow 0 < 10 ∧
    mmGetMove (fun g => custom_score g true) tbLow 10 3 treeLose =
      ((2 : Int), (2 : Int)) ∧
    abGetMove (fun g => custom_score g true) tbLow 10 treeLose 5 =
      ((2 : Int), (2 : Int)) := by
  refine ⟨by simp [getLegalMoves, treeLose, GameTree.children], by norm_num [tbLow], ?_⟩
  exact claim_C7 (fun g => custom_score g true) tbLow 10 3 5 treeLose
    ((2 : Int), (2 : Int)) []
    (by simp [getLegalMoves, treeLose, GameTree.children])
    (by norm_num [tbLow])

/-- Claim C9: each of the three evaluation strategies returns `-inf`
when the evaluated player has already lost and `+inf` when it has
already won, before any other branch is evaluated (the source checks
`is_loser` first, then `is_winner`; for the zero-sum Board the two
are mutually exclusive, so the second statement carries the loser
check's negation only to reflect the source's evaluation order). -/
theorem claim_C9 (g : GameTree) (p : Bool) :
    (isLoser g p = true →
      custom_score g p = Val.neginf ∧ custom_score_2 g p = Val.neginf ∧
      custom_score_3 g p = Val.neginf) ∧
    (isLoser g p = false → isWinner g p = true →
      custom_score g p = Val.posinf ∧ custom_score_2 g p = Val.posinf ∧
      custom_score_3 g p = Val.posinf) := by
  constructor
  · intro h
    refine ⟨?_, ?_, ?_⟩ <;> simp [custom_score, custom_score_2, custom_score_3, h]
  · intro h1 h2
    refine ⟨?_, ?_, ?_⟩ <;>
      simp [custom_score, custom_score_2, custom_score_3, h1, h2]

/-- Claim C9, witness: a concrete lost state and a concrete won
state. -/
theorem claim_C9_witness :
    isLoser treeLost true = true ∧
    isLoser treeWon true = false ∧ isWinner treeWon true = true ∧
    custom_score treeLost true = Val.neginf ∧
    custom_score_2 treeLost true = Val.neginf ∧
    custom_score_3 treeLost true = Val.neginf ∧
    custom_score treeWon true = Val.posinf ∧
    custom_score_2 treeWon true = Val.posinf ∧
    custom_score_3 treeWon true = Val.posinf := by
  have hl := (claim_C9 treeLost true).1 (by rfl)
  have hw := (claim_C9 treeWon true).2 (by rfl) (by rfl)
  exact ⟨by rfl, by rfl, by rfl, hl.1, hl.2.1, hl.2.2, hw.1, hw.2.1, hw.2.2⟩

/-- Claim C10: in `MinimaxPlayer.minimax`, an interior node with no
legal moves whose traversed depth has not reached the cutoff yields
`+inf` from `min_value` and `-inf` from `max_value` — the empty-loop
identity values, independent of the evaluation strategy (the strategy
is universally quantified and absent from the result) — whereas the
alpha-beta recursion evaluates the strategy at such a node. -/
theorem claim_C10 (score : GameTree → Val) (tb : Nat → ℚ) (th : ℚ)
    (depth : Nat) (d : NodeData) (td t : Nat)
    (h1 : ¬ tb t < th) (h2 : td ≠ depth) :
    mmMin score tb th depth (.node d []) td t = .ok (Val.posinf, t + 1) ∧
    mmMax score tb th depth (.node d []) td t = .ok (Val.neginf, t + 1) ∧
    (∀ dep a b, abMin score tb th (.node d []) dep a b t =
      .ok (score (.node d []), t + 1)) ∧
    (∀ dep a b, abMax score tb th (.node d []) dep a b t =
      .ok (score (.node d []), t + 1)) := by
  refine ⟨?_, ?_, ?_, ?_⟩
  · simp [mmMin, checkTime, h1, h2, mmMinFold]
  · simp [mmMax, checkTime, h1, h2, mmMaxFold]
  · intro dep a b
    simp [abMin, checkTime, h1]
  · intro dep a b
    simp [abMax, checkTime, h1]

/-- Claim C10, witness: a concrete stuck interior node below the
cutoff, with the default strategy. -/
theorem claim_C10_witness :
    (¬ tbAmple 0 < 10) ∧ (1 : Nat) ≠ 3 ∧
    (mmMin (fun g => custom_score g true) tbAmple 10 3 (.node baseData []) 1 0 =
        .ok (Val.posinf, 1) ∧
      mmMax (fun g => custom_score g true) tbAmple 10 3 (.node baseData []) 1 0 =
        .ok (Val.neginf, 1) ∧
      (∀ dep a b, abMin (fun g => custom_score g true) tbAmple 10
        (.node baseData []) dep a b 0 =
        .ok (custom_score (.node baseData []) true, 1)) ∧
      (∀ dep a b, abMax (fun g => custom_score g true) tbAmple 10
        (.node baseData []) dep a b 0 =
        .ok (custom_score (.node baseData []) true, 1))) :=
  ⟨by norm_num [tbAmple], by decide,
    claim_C10 (fun g => custom_score g true) tbAmple 10 3 baseData 1 0
      (by norm_num [tbAmple]) (by decide)⟩

/-- Claim C5, counterexample: on the standard 7×7 board the exact
board centre is the cell `(3, 3)`, yet `custom_score_3` of a
non-terminal state with the evaluated player on that cell is not
`+inf` — the source compares the integer location with the float pair
`(width / 2, height / 2) = (3.5, 3.5)`, which no cell ever equals when
a dimension is odd. -/
theorem claim_C5_counterexample :
    isLoser treeCenter7 true = false ∧
    isWinner treeCenter7 true = false ∧
    treeCenter7.data.width = 7 ∧ treeCenter7.data.height = 7 ∧
    getPlayerLocation treeCenter7 true = ((3 : Int), (3 : Int)) ∧
    custom_score_3 treeCenter7 true ≠ Val.posinf := by
  refine ⟨rfl, rfl, rfl, rfl, rfl, ?_⟩
  norm_num [custom_score_3, isLoser, isWinner, getPlayerLocation, getOpponent,
    legalMovesFor, getBlankSpaces, ratPair, treeCenter7, baseData,
    GameTree.data]
  exact ⟨by decide, by simp⟩

/-- Claim C5, amended: `custom_score_3` returns `+inf` whenever the
evaluated player's location, compared by value, equals the float pair
`(width / 2, height / 2)` — which is possible only when both
dimensions are even, and never fires for odd dimensions such as the
standard 7×7 board. -/
theorem claim_C5_amended (g : GameTree) (p : Bool)
    (h1 : isLoser g p = false) (h2 : isWinner g p = false)
    (h3 : ratPair (getPlayerLocation g p) =
      ((g.data.width : ℚ) / 2, (g.data.height : ℚ) / 2)) :
    custom_score_3 g p = Val.posinf := by
  simp [custom_score_3, h1, h2, h3]

/-- Claim C5, witness for the amended statement: a 6×6 board with the
player at `(3, 3) = (6 / 2, 6 / 2)`. -/
theorem claim_C5_witness :
    isLoser treeCenter6 true = false ∧
    isWinner treeCenter6 true = false ∧
    ratPair (getPlayerLocation treeCenter6 true) =
      ((treeCenter6.data.width : ℚ) / 2, (treeCenter6.data.height : ℚ) / 2) ∧
    custom_score_3 treeCenter6 true = Val.posinf := by
  have h3 : ratPair (getPlayerLocation treeCenter6 true) =
      ((treeCenter6.data.width : ℚ) / 2, (treeCenter6.data.height : ℚ) / 2) := by
    norm_num [ratPair, getPlayerLocation, treeCenter6, baseData, GameTree.data]
  exact ⟨by decide, by decide, h3,
    claim_C5_amended treeCenter6 true (by decide) (by decide) h3⟩

/-- Claim C2 (code bug): in a concrete non-terminal late-game state
(three blank cells) in which the specified longest move-sequence of
the player is 2 and that of the opponent is 0, `custom_score` returns
`0` rather than the specified difference `2`: the source `longestPath`
discards the return value of every recursive call, so both
longest-path computations yield `0`. -/
theorem claim_C2_code_eval :
    (getBlankSpaces treeLP2).length < 15 ∧
    isLoser treeLP2 true = false ∧
    isWinner treeLP2 true = false ∧
    specLongestPath true treeLP2 = 2 ∧
    specLongestPath false treeLP2 = 0 ∧
    custom_score treeLP2 true = Val.num 0 := by
  refine ⟨by decide, by decide, by decide, ?_, ?_, ?_⟩
  · norm_num [specLongestPath, specLongestPathKids, treeLP2, treeLP1, treeLP0,
      baseData]
  · norm_num [specLongestPath, specLongestPathKids, treeLP2, treeLP1, treeLP0,
      baseData]
  · norm_num [custom_score, longestPath, isLoser, isWinner, getBlankSpaces,
      getOpponent, treeLP2, treeLP1, treeLP0, baseData, GameTree.data]

/-- Claim C1 (code bug): a state with a legal move from which
`AlphaBetaPlayer.get_move` returns the no-move sentinel.  In the
forced-loss state `treeLose` (one legal move, every line lost after
two plies), with the default strategy `custom_score` and a budget that
lets depth iterations 1 and 2 complete, the depth-2 scan backs up
`-inf` for every move, the root's strict `v > best_val` test never
fires, and the scan's initial `best_move = (-1, -1)` escapes to the
caller — contradicting the engine's own contract of returning a legal
move whenever one exists. -/
theorem claim_C1_code_eval :
    getLegalMoves treeLose = [((2 : Int), (2 : Int))] ∧
    ((-1 : Int), (-1 : Int)) ∉ getLegalMoves treeLose ∧
    abGetMove (fun g => custom_score g true) tbC1 10 treeLose 3 =
      ((-1 : Int), (-1 : Int)) := by
  refine ⟨by decide, by decide, ?_⟩
  norm_num [abGetMove, abLoop, abRoot, abRootFold, abMin, abMax, abMinFold,
    abMaxFold, checkTime, tbC1, treeLose, treeLoseMid, treeLoseLeaf, baseData,
    custom_score, longestPath, getLegalMoves, GameTree.children, GameTree.data,
    isLoser, isWinner, getBlankSpaces, legalMovesFor, getOpponent, min_def,
    max_def, Val.le_def, Val.lt_def, Val.le]

theorem abLoop_after_steps (score : GameTree → Val) (tb : Nat → ℚ) (th : ℚ)
    (g : GameTree) :
    ∀ N fuel best dep t mN tN,
    loopSteps score tb th g N best dep t = some (mN, tN) →
    th < tb tN →
    abRoot score tb th g (dep + N) (tN + 1) = .error () →
    N < fuel →
    abLoop score tb th g fuel best dep t = mN := by
  intro N
  induction N with
  | zero =>
    intro fuel best dep t mN tN hstep hcond herr hfuel
    simp only [loopSteps, Option.some.injEq, Prod.mk.injEq] at hstep
    obtain ⟨h1, h2⟩ := hstep
    subst h1
    subst h2
    cases fuel with
    | zero => exact absurd hfuel (by omega)
    | succ f =>
      rw [Nat.add_zero] at herr
      simp [abLoop, hcond, herr]
  | succ n ih =>
    intro fuel best dep t mN tN hstep hcond herr hfuel
    simp only [loopSteps] at hstep
    by_cases hc : th < tb t
    · rw [if_pos hc] at hstep
      cases hab : abRoot score tb th g dep (t + 1) with
      | error e =>
        rw [hab] at hstep
        simp at hstep
      | ok mt =>
        obtain ⟨m, t1⟩ := mt
        rw [hab] at hstep
        cases fuel with
        | zero => exact absurd hfuel (by omega)
        | succ f =>
          rw [abLoop, if_pos hc, hab]
          refine ih f m (dep + 1) t1 mN tN hstep hcond ?_ (by omega)
          have hdep : dep + 1 + n = dep + (n + 1) := by omega
          rw [hdep]
          exact herr
    · rw [if_neg hc] at hstep
      simp at hstep

/-- Claim C3: whenever the time budget lets the iterative-deepening
loop of `AlphaBetaPlayer.get_move` complete depth iterations `1..N`
(ending with best move `mN`, the move produced by the completed
depth-`N` search) and the next iteration's `alphabeta` call raises
`SearchTimeout`, `get_move` returns `mN` — never anything examined
during the aborted iteration. -/
theorem claim_C3 (score : GameTree → Val) (tb : Nat → ℚ) (th : ℚ)
    (g : GameTree) (m0 : Move) (rest : List Move) (N fuel : Nat) (mN : Move)
    (tN : Nat)
    (hlm : getLegalMoves g = m0 :: rest)
    (hsteps : loopSteps score tb th g N m0 1 0 = some (mN, tN))
    (hcond : th < tb tN)
    (herr : abRoot score tb th g (1 + N) (tN + 1) = .error ())
    (hfuel : N < fuel) :
    abGetMove score tb th g fuel = mN := by
  simp only [abGetMove, hlm]
  exact abLoop_after_steps score tb th g N fuel m0 1 0 mN tN hsteps hcond herr
    hfuel

/-- Claim C3, witness: on the forced-loss state with the default
strategy, a budget that completes depth iteration 1 (choosing
`(2, 2)`) and expires during iteration 2 makes `get_move` return
`(2, 2)`. -/
theorem claim_C3_witness :
    getLegalMoves treeLose = [((2 : Int), (2 : Int))] ∧
    loopSteps (fun g => custom_score g true) tbC3 10 treeLose 1
      ((2 : Int), (2 : Int)) 1 0 = some (((2 : Int), (2 : Int)), 2) ∧
    (10 : ℚ) < tbC3 2 ∧
    abRoot (fun g => custom_score g true) tbC3 10 treeLose (1 + 1) (2 + 1) =
      .error () ∧
    (1 : Nat) < 3 ∧
    abGetMove (fun g => custom_score g true) tbC3 10 treeLose 3 =
      ((2 : Int), (2 : Int)) := by
  have hlm : getLegalMoves treeLose = [((2 : Int), (2 : Int))] := by decide
  have hsteps : loopSteps (fun g => custom_score g true) tbC3 10 treeLose 1
      ((2 : Int), (2 : Int)) 1 0 = some (((2 : Int), (2 : Int)), 2) := by
    norm_num [loopSteps, abRoot, abRootFold, abMin, abMax, abMinFold, abMaxFold,
      checkTime, tbC3, treeLose, treeLoseMid, treeLoseLeaf, baseData,
      custom_score, longestPath, getLegalMoves, GameTree.children,
      GameTree.data, isLoser, isWinner, getBlankSpaces, legalMovesFor,
      getOpponent, min_def, max_def, Val.le_def, Val.lt_def, Val.le]
  have hcond : (10 : ℚ) < tbC3 2 := by norm_num [tbC3]
  have herr : abRoot (fun g => custom_score g true) tbC3 10 treeLose (1 + 1)
      (2 + 1) = .error () := by
    norm_num [abRoot, abRootFold, abMin, abMax, abMinFold, abMaxFold,
      checkTime, tbC3, treeLose, treeLoseMid, treeLoseLeaf, baseData,
      custom_score, longestPath, GameTree.children, GameTree.data, isLoser,
      isWinner, getBlankSpaces, legalMovesFor, getOpponent, min_def, max_def,
      Val.le_def, Val.lt_def, Val.le]
  exact ⟨hlm, hsteps, hcond, herr, by omega,
    claim_C3 (fun g => custom_score g true) tbC3 10 treeLose
      ((2 : Int), (2 : Int)) [] 1 3 ((2 : Int), (2 : Int)) 2 hlm hsteps hcond
      herr (by omega)⟩

/-- Claim C6: the time-budget discipline.  (i) Every recursive
`min_value`/`max_value` call of either engine raises `SearchTimeout`
at its entry check whenever the query reports below the threshold;
(ii) an abort inside a move loop or below it propagates through the
enclosing frame — no intermediate frame catches it; and (iii) at the
top level, a propagated `SearchTimeout` makes `MinimaxPlayer.get_move`
return its recorded fallback (the first legal move) and makes the
iterative-deepening loop of `AlphaBetaPlayer.get_move` return the
best-known-complete move. -/
theorem claim_C6 (score : GameTree → Val) (tb : Nat → ℚ) (th : ℚ)
    (depth : Nat) :
    (∀ g td t, tb t < th → mmMin score tb th depth g td t = .error ()) ∧
    (∀ g td t, tb t < th → mmMax score tb th depth g td t = .error ()) ∧
    (∀ g dep a b t, tb t < th → abMin score tb th g dep a b t = .error ()) ∧
    (∀ g dep a b t, tb t < th → abMax score tb th g dep a b t = .error ()) ∧
    (∀ m c rest v td t, ¬ tb t < th →
      mmMax score tb th depth c td (t + 1) = .error () →
      mmMinFold score tb th depth ((m, c) :: rest) v td t = .error ()) ∧
    (∀ m c rest v w td t t2, ¬ tb t < th →
      mmMax score tb th depth c td (t + 1) = .ok (w, t2) →
      mmMinFold score tb th depth rest (min v w) td t2 = .error () →
      mmMinFold score tb th depth ((m, c) :: rest) v td t = .error ()) ∧
    (∀ m c rest v td t, ¬ tb t < th →
      mmMin score tb th depth c td (t + 1) = .error () →
      mmMaxFold score tb th depth ((m, c) :: rest) v td t = .error ()) ∧
    (∀ m c rest v w td t t2, ¬ tb t < th →
      mmMin score tb th depth c td (t + 1) = .ok (w, t2) →
      mmMaxFold score tb th depth rest (max v w) td t2 = .error () →
      mmMaxFold score tb th depth ((m, c) :: rest) v td t = .error ()) ∧
    (∀ m c rest dep v a b t,
      abMax score tb th c (dep - 1) a b t = .error () →
      abMinFold score tb th ((m, c) :: rest) dep v a b t = .error ()) ∧
    (∀ m c rest dep v w a b t t1,
      abMax score tb th c (dep - 1) a b t = .ok (w, t1) →
      ¬ min v w ≤ a →
      abMinFold score tb th rest dep (min v w) a (min b (min v w)) t1 =
        .error () →
      abMinFold score tb th ((m, c) :: rest) dep v a b t = .error ()) ∧
    (∀ m c rest dep v a b t,
      abMin score tb th c (dep - 1) a b t = .error () →
      abMaxFold score tb th ((m, c) :: rest) dep v a b t = .error ()) ∧
    (∀ m c rest dep v w a b t t1,
      abMin score tb th c (dep - 1) a b t = .ok (w, t1) →
      ¬ b ≤ max v w →
      abMaxFold score tb th rest dep (max v w) (max a (max v w)) b t1 =
        .error () →
      abMaxFold score tb th ((m, c) :: rest) dep v a b t = .error ()) ∧
    (∀ d ch td t, ¬ tb t < th → td ≠ depth →
      mmMinFold score tb th depth ch Val.posinf (td + 1) (t + 1) = .error () →
      mmMin score tb th depth (.node d ch) td t = .error ()) ∧
    (∀ d ch td t, ¬ tb t < th → td ≠ depth →
      mmMaxFold score tb th depth ch Val.neginf (td + 1) (t + 1) = .error () →
      mmMax score tb th depth (.node d ch) td t = .error ()) ∧
    (∀ d ch dep a b t, ¬ tb t < th → ¬ (dep = 0 ∨ ch.isEmpty = true) →
      abMinFold score tb th ch dep Val.posinf a b (t + 1) = .error () →
      abMin score tb th (.node d ch) dep a b t = .error ()) ∧
    (∀ d ch dep a b t, ¬ tb t < th → ¬ (dep = 0 ∨ ch.isEmpty = true) →
      abMaxFold score tb th ch dep Val.neginf a b (t + 1) = .error () →
      abMax score tb th (.node d ch) dep a b t = .error ()) ∧
    (∀ g m0 rest, getLegalMoves g = m0 :: rest →
      mmRoot score tb th depth g 0 = .error () →
      mmGetMove score tb th depth g = m0) ∧
    (∀ g fuel best dep t, th < tb t →
      abRoot score tb th g dep (t + 1) = .error () →
      abLoop score tb th g (fuel + 1) best dep t = best) := by
  refine ⟨?_, ?_, ?_, ?_, ?_, ?_, ?_, ?_, ?_, ?_, ?_, ?_, ?_, ?_, ?_, ?_,
    ?_, ?_⟩
  · intro g td t h
    exact mmMin_timeout score tb th depth g td t h
  · intro g td t h
    exact mmMax_timeout score tb th depth g td t h
  · intro g dep a b t h
    exact abMin_timeout score tb th g dep a b t h
  · intro g dep a b t h
    exact abMax_timeout score tb th g dep a b t h
  · intro m c rest v td t h herr
    simp [mmMinFold, checkTime, h, herr]
  · intro m c rest v w td t t2 h hok herr
    simp [mmMinFold, checkTime, h, hok, herr]
  · intro m c rest v td t h herr
    simp [mmMaxFold, checkTime, h, herr]
  · intro m c rest v w td t t2 h hok herr
    simp [mmMaxFold, checkTime, h, hok, herr]
  · intro m c rest dep v a b t herr
    simp [abMinFold, herr]
  · intro m c rest dep v w a b t t1 hok hna herr
    simp [abMinFold, hok, hna, herr]
  · intro m c rest dep v a b t herr
    simp [abMaxFold, herr]
  · intro m c rest dep v w a b t t1 hok hnb herr
    simp [abMaxFold, hok, hnb, herr]
  · intro d ch td t h1 h2 herr
    simp [mmMin, checkTime, h1, h2, herr]
  · intro d ch td t h1 h2 herr
    simp [mmMax, checkTime, h1, h2, herr]
  · intro d ch dep a b t h1 h2 herr
    simp [abMin, checkTime, h1, herr]
    exact ⟨fun h0 => h2 (Or.inl h0), fun hch => h2 (Or.inr (by simp [hch]))⟩
  · intro d ch dep a b t h1 h2 herr
    simp [abMax, checkTime, h1, herr]
    exact ⟨fun h0 => h2 (Or.inl h0), fun hch => h2 (Or.inr (by simp [hch]))⟩
  · intro g m0 rest hlm herr
    simp only [mmGetMove]
    rw [hlm, herr]
  · intro g fuel best dep t hcond herr
    simp [abLoop, hcond, herr]

/-- Claim C6, witness: concrete instances of the raise-at-entry checks
and of both top-level fallbacks. -/
theorem claim_C6_witness :
    tbLow 0 < 10 ∧
    mmMin (fun g => custom_score g true) tbLow 10 3 treeLose 1 0 =
      .error () ∧
    mmMax (fun g => custom_score g true) tbLow 10 3 treeLose 1 0 =
      .error () ∧
    abMin (fun g => custom_score g true) tbLow 10 treeLose 1 Val.neginf
      Val.posinf 0 = .error () ∧
    abMax (fun g => custom_score g true) tbLow 10 treeLose 1 Val.neginf
      Val.posinf 0 = .error () ∧
    getLegalMoves treeLose = [((2 : Int), (2 : Int))] ∧
    mmRoot (fun g => custom_score g true) tbLow 10 3 treeLose 0 =
      .error () ∧
    mmGetMove (fun g => custom_score g true) tbLow 10 3 treeLose =
      ((2 : Int), (2 : Int)) ∧
    (10 : ℚ) < tbC3 2 ∧
    abRoot (fun g => custom_score g true) tbC3 10 treeLose 2 (2 + 1) =
      .error () ∧
    abLoop (fun g => custom_score g true) tbC3 10 treeLose (0 + 1)
      ((2 : Int), (2 : Int)) 2 2 = ((2 : Int), (2 : Int)) := by
  obtain ⟨p1, p2, p3, p4, p5, p6, p7, p8, p9, p10, p11, p12, p13, p14, p15,
    p16, p17, p18⟩ := claim_C6 (fun g => custom_score g true) tbLow 10 3
  obtain ⟨q1, q2, q3, q4, q5, q6, q7, q8, q9, q10, q11, q12, q13, q14, q15,
    q16, q17, q18⟩ := claim_C6 (fun g => custom_score g true) tbC3 10 3
  have hl : tbLow 0 < (10 : ℚ) := by norm_num [tbLow]
  have hroot : mmRoot (fun g => custom_score g true) tbLow 10 3 treeLose 0 =
      .error () := by
    simp [mmRoot, treeLose, GameTree.children,
      mmMin_timeout (fun g => custom_score g true) tbLow 10 3 treeLoseMid 1 0
        hl]
  have hcond : (10 : ℚ) < tbC3 2 := by norm_num [tbC3]
  have habroot : abRoot (fun g => custom_score g true) tbC3 10 treeLose 2
      (2 + 1) = .error () := by
    simp [abRoot, treeLose, GameTree.children, abRootFold,
      abMin_timeout (fun g => custom_score g true) tbC3 10 treeLoseMid (2 - 1)
        Val.neginf Val.posinf 3 (by norm_num [tbC3])]
  refine ⟨hl, p1 treeLose 1 0 hl, p2 treeLose 1 0 hl,
    p3 treeLose 1 Val.neginf Val.posinf 0 hl,
    p4 treeLose 1 Val.neginf Val.posinf 0 hl,
    by decide, hroot,
    p17 treeLose ((2 : Int), (2 : Int)) [] (by decide) hroot,
    hcond, habroot,
    q18 treeLose 0 ((2 : Int), (2 : Int)) 2 2 hcond habroot⟩

theorem Val.min_posinf_right (v : Val) : min v Val.posinf = v :=
  min_eq_left (Val.le_posinf v)

theorem Val.max_neginf_right (v : Val) : max v Val.neginf = v :=
  max_eq_left (Val.neginf_le v)



mutual

theorem abMinP_bounds (score : GameTree → Val) (g : GameTree) (dep : Nat)
    (a b : Val) :
    abMinP score g dep a b ≤ max a (mvalMin score g dep) ∧
    min b (mvalMin score g dep) ≤ abMinP score g dep a b := by
  obtain ⟨d, ch⟩ := g
  by_cases hcut : dep = 0 ∨ ch.isEmpty = true
  · rw [abMinP, mvalMin, if_pos hcut, if_pos hcut]
    exact ⟨le_max_right _ _, min_le_right _ _⟩
  · rw [abMinP, mvalMin, if_neg hcut, if_neg hcut]
    have h := abMinFoldP_bounds score ch dep Val.posinf a b
    rw [Val.min_posinf] at h
    exact h
termination_by sizeOf g

theorem abMinFoldP_bounds (score : GameTree → Val)
    (l : List (Move × GameTree)) (dep : Nat) (v a b : Val) :
    abMinFoldP score l dep v a b ≤
      max a (min v (mvalMinList score l dep)) ∧
    min b (min v (mvalMinList score l dep)) ≤
      abMinFoldP score l dep v a b := by
  match l with
  | [] =>
    rw [abMinFoldP, mvalMinList, Val.min_posinf_right]
    exact ⟨le_max_right _ _, min_le_right _ _⟩
  | (m, c) :: rest =>
    rw [abMinFoldP, mvalMinList]
    obtain ⟨hwle, hwge⟩ := abMaxP_bounds score c (dep - 1) a b
    have hXw : min b
        (min v (min (mvalMax score c (dep - 1)) (mvalMinList score rest dep))) ≤
        abMaxP score c (dep - 1) a b := by
      refine le_trans (le_min (min_le_left _ _) ?_) hwge
      exact le_trans (min_le_right b _)
        (le_trans (min_le_right v _) (min_le_left _ _))
    have hXv1 : min b
        (min v (min (mvalMax score c (dep - 1)) (mvalMinList score rest dep))) ≤
        min v (abMaxP score c (dep - 1) a b) := by
      refine le_min ?_ hXw
      exact le_trans (min_le_right b _) (min_le_left _ _)
    by_cases hp : min v (abMaxP score c (dep - 1) a b) ≤ a
    · rw [if_pos hp]
      exact ⟨hp.trans (le_max_left _ _), hXv1⟩
    · rw [if_neg hp]
      have hwa : ¬ abMaxP score c (dep - 1) a b ≤ a :=
        fun hw => hp (le_trans (min_le_right v _) hw)
      have hwtc : abMaxP score c (dep - 1) a b ≤ mvalMax score c (dep - 1) := by
        rcases le_total (mvalMax score c (dep - 1)) a with h | h
        · exact absurd (hwle.trans (by rw [max_eq_left h])) hwa
        · rwa [max_eq_right h] at hwle
      obtain ⟨h1, h2⟩ := abMinFoldP_bounds score rest dep
        (min v (abMaxP score c (dep - 1) a b)) a
        (min b (min v (abMaxP score c (dep - 1) a b)))
      constructor
      · refine h1.trans (max_le_max (le_refl a) ?_)
        refine le_min ?_ (le_min ?_ (min_le_right _ _))
        · exact le_trans (min_le_left _ _) (min_le_left v _)
        · exact le_trans (min_le_left _ _)
            (le_trans (min_le_right v _) hwtc)
      · refine le_trans (le_min (le_min (min_le_left _ _) hXv1)
          (le_min hXv1 ?_)) h2
        exact le_trans (min_le_right b _)
          (le_trans (min_le_right v _) (min_le_right _ _))
termination_by sizeOf l

theorem abMaxP_bounds (score : GameTree → Val) (g : GameTree) (dep : Nat)
    (a b : Val) :
    abMaxP score g dep a b ≤ max a (mvalMax score g dep) ∧
    min b (mvalMax score g dep) ≤ abMaxP score g dep a b := by
  obtain ⟨d, ch⟩ := g
  by_cases hcut : dep = 0 ∨ ch.isEmpty = true
  · rw [abMaxP, mvalMax, if_pos hcut, if_pos hcut]
    exact ⟨le_max_right _ _, min_le_right _ _⟩
  · rw [abMaxP, mvalMax, if_neg hcut, if_neg hcut]
    have h := abMaxFoldP_bounds score ch dep Val.neginf a b
    rw [Val.max_neginf] at h
    exact h
termination_by sizeOf g

theorem abMaxFoldP_bounds (score : GameTree → Val)
    (l : List (Move × GameTree)) (dep : Nat) (v a b : Val) :
    abMaxFoldP score l dep v a b ≤
      max a (max v (mvalMaxList score l dep)) ∧
    min b (max v (mvalMaxList score l dep)) ≤
      abMaxFoldP score l dep v a b := by
  match l with
  | [] =>
    rw [abMaxFoldP, mvalMaxList, Val.max_neginf_right]
    exact ⟨le_max_right _ _, min_le_right _ _⟩
  | (m, c) :: rest =>
    rw [abMaxFoldP, mvalMaxList]
    obtain ⟨hwle, hwge⟩ := abMinP_bounds score c (dep - 1) a b
    have hvR : v ≤ max a (max v
        (max (mvalMin score c (dep - 1)) (mvalMaxList score rest dep))) :=
      le_trans (le_max_left v _) (le_max_right a _)
    have hwRa : abMinP score c (dep - 1) a b ≤ max a (max v
        (max (mvalMin score c (dep - 1)) (mvalMaxList score rest dep))) := by
      refine hwle.trans (max_le (le_max_left a _) ?_)
      exact le_trans (le_max_left _ _)
        (le_trans (le_max_right v _) (le_max_right a _))
    have hv1R : max v (abMinP score c (dep - 1) a b) ≤ max a (max v
        (max (mvalMin score c (dep - 1)) (mvalMaxList score rest dep))) :=
      max_le hvR hwRa
    by_cases hp : b ≤ max v (abMinP score c (dep - 1) a b)
    · rw [if_pos hp]
      exact ⟨hv1R, le_trans (min_le_left _ _) hp⟩
    · rw [if_neg hp]
      have hbw : ¬ b ≤ abMinP score c (dep - 1) a b :=
        fun h => hp (le_trans h (le_max_right v _))
      have htcw : mvalMin score c (dep - 1) ≤ abMinP score c (dep - 1) a b := by
        rcases le_total b (mvalMin score c (dep - 1)) with h | h
        · exact absurd (le_trans (le_of_eq (min_eq_left h).symm) hwge) hbw
        · rw [min_eq_right h] at hwge
          exact hwge
      obtain ⟨h1, h2⟩ := abMaxFoldP_bounds score rest dep
        (max v (abMinP score c (dep - 1) a b))
        (max a (max v (abMinP score c (dep - 1) a b))) b
      constructor
      · refine h1.trans ?_
        refine max_le (max_le (le_max_left a _) hv1R)
          (max_le hv1R ?_)
        exact le_trans (le_max_right (mvalMin score c (dep - 1)) _)
          (le_trans (le_max_right v _) (le_max_right a _))
      · refine le_trans (le_min (min_le_left _ _) ?_) h2
        refine le_trans (min_le_right b _) (max_le ?_ (max_le ?_ ?_))
        · exact le_trans (le_max_left v _) (le_max_left _ _)
        · exact le_trans htcw
            (le_trans (le_max_right v _) (le_max_left _ _))
        · exact le_max_right _ _
termination_by sizeOf l

end


mutual

theorem mmMinP_eq_mval (score : GameTree → Val) (depth : Nat) (g : GameTree)
    (td : Nat) :
    td ≤ depth → termCons score false g = true →
    mmMinP score depth g td = mvalMin score g (depth - td) := by
  obtain ⟨d, ch⟩ := g
  intro htd hTC
  rw [termCons] at hTC
  simp only [Bool.and_eq_true] at hTC
  obtain ⟨hTC1, hTC2⟩ := hTC
  by_cases hcut : td = depth
  · rw [mmMinP, mvalMin, if_pos hcut, if_pos (Or.inl (by omega))]
  · have htd2 : td < depth := lt_of_le_of_ne htd hcut
    by_cases hch : ch.isEmpty = true
    · have hchn : ch = [] := by
        cases ch with
        | nil => rfl
        | cons a l => simp [List.isEmpty] at hch
      subst hchn
      rw [mmMinP, mvalMin, if_neg hcut, if_pos (Or.inr List.isEmpty_nil),
        mmMinFoldP]
      simp at hTC1
      exact hTC1.symm
    · rw [mmMinP, mvalMin, if_neg hcut, if_neg (by
        intro hor
        rcases hor with h0 | hemp
        · omega
        · exact hch hemp)]
      have hfold := mmMinFoldP_eq score depth ch Val.posinf (td + 1) (by omega)
        hTC2
      rw [hfold, Val.min_posinf]
      have harg : depth - (td + 1) + 1 = depth - td := by omega
      rw [harg]
termination_by sizeOf g

theorem mmMinFoldP_eq (score : GameTree → Val) (depth : Nat)
    (l : List (Move × GameTree)) (v : Val) (td1 : Nat) :
    td1 ≤ depth → termConsList score true l = true →
    mmMinFoldP score depth l v td1 =
      min v (mvalMinList score l (depth - td1 + 1)) := by
  cases l with
  | nil =>
    intro htd hTC
    rw [mmMinFoldP, mvalMinList, Val.min_posinf_right]
  | cons hd rest =>
    obtain ⟨m, c⟩ := hd
    intro htd hTC
    rw [termConsList] at hTC
    simp only [Bool.and_eq_true] at hTC
    obtain ⟨hTC1, hTC2⟩ := hTC
    rw [mmMinFoldP, mvalMinList]
    have hc := mmMaxP_eq_mval score depth c td1 htd hTC1
    have hrest := mmMinFoldP_eq score depth rest
      (min v (mmMaxP score depth c td1)) td1 htd hTC2
    rw [hrest, hc]
    have harg : depth - td1 + 1 - 1 = depth - td1 := by omega
    rw [harg, min_assoc]
termination_by sizeOf l

theorem mmMaxP_eq_mval (score : GameTree → Val) (depth : Nat) (g : GameTree)
    (td : Nat) :
    td ≤ depth → termCons score true g = true →
    mmMaxP score depth g td = mvalMax score g (depth - td) := by
  obtain ⟨d, ch⟩ := g
  intro htd hTC
  rw [termCons] at hTC
  simp only [Bool.and_eq_true] at hTC
  obtain ⟨hTC1, hTC2⟩ := hTC
  by_cases hcut : td = depth
  · rw [mmMaxP, mvalMax, if_pos hcut, if_pos (Or.inl (by omega))]
  · have htd2 : td < depth := lt_of_le_of_ne htd hcut
    by_cases hch : ch.isEmpty = true
    · have hchn : ch = [] := by
        cases ch with
        | nil => rfl
        | cons a l => simp [List.isEmpty] at hch
      subst hchn
      rw [mmMaxP, mvalMax, if_neg hcut, if_pos (Or.inr List.isEmpty_nil),
        mmMaxFoldP]
      simp at hTC1
      exact hTC1.symm
    · rw [mmMaxP, mvalMax, if_neg hcut, if_neg (by
        intro hor
        rcases hor with h0 | hemp
        · omega
        · exact hch hemp)]
      have hfold := mmMaxFoldP_eq score depth ch Val.neginf (td + 1) (by omega)
        hTC2
      rw [hfold, Val.max_neginf]
      have harg : depth - (td + 1) + 1 = depth - td := by omega
      rw [harg]
termination_by sizeOf g

theorem mmMaxFoldP_eq (score : GameTree → Val) (depth : Nat)
    (l : List (Move × GameTree)) (v : Val) (td1 : Nat) :
    td1 ≤ depth → termConsList score false l = true →
    mmMaxFoldP score depth l v td1 =
      max v (mvalMaxList score l (depth - td1 + 1)) := by
  cases l with
  | nil =>
    intro htd hTC
    rw [mmMaxFoldP, mvalMaxList, Val.max_neginf_right]
  | cons hd rest =>
    obtain ⟨m, c⟩ := hd
    intro htd hTC
    rw [termConsList] at hTC
    simp only [Bool.and_eq_true] at hTC
    obtain ⟨hTC1, hTC2⟩ := hTC
    rw [mmMaxFoldP, mvalMaxList]
    have hc := mmMinP_eq_mval score depth c td1 htd hTC1
    have hrest := mmMaxFoldP_eq score depth rest
      (max v (mmMinP score depth c td1)) td1 htd hTC2
    rw [hrest, hc]
    have harg : depth - td1 + 1 - 1 = depth - td1 := by omega
    rw [harg, max_assoc]
termination_by sizeOf l

end

theorem abRootFoldP_spec (score : GameTree → Val) (dep : Nat) :
    ∀ (l : List (Move × GameTree)) (best : Move) (bestv : Val),
    (abRootFoldP score l dep best bestv bestv Val.posinf).2 =
      max bestv (mvalMaxList score l dep) ∧
    ((abRootFoldP score l dep best bestv bestv Val.posinf).1 = best ∧
      (abRootFoldP score l dep best bestv bestv Val.posinf).2 = bestv ∨
     ∃ c, ((abRootFoldP score l dep best bestv bestv Val.posinf).1, c) ∈ l ∧
       mvalMin score c (dep - 1) =
         (abRootFoldP score l dep best bestv bestv Val.posinf).2) := by
  intro l
  induction l with
  | nil =>
    intro best bestv
    rw [abRootFoldP, mvalMaxList, Val.max_neginf_right]
    exact ⟨rfl, Or.inl ⟨rfl, rfl⟩⟩
  | cons hd rest ih =>
    obtain ⟨m, c⟩ := hd
    intro best bestv
    rw [abRootFoldP, mvalMaxList]
    obtain ⟨hle, hge⟩ := abMinP_bounds score c (dep - 1) bestv Val.posinf
    rw [Val.min_posinf] at hge
    by_cases hbv : bestv < abMinP score c (dep - 1) bestv Val.posinf
    · rw [if_pos hbv]
      have htc : abMinP score c (dep - 1) bestv Val.posinf =
          mvalMin score c (dep - 1) := by
        refine le_antisymm ?_ hge
        rcases le_total (mvalMin score c (dep - 1)) bestv with h | h
        · exact absurd (hle.trans (by rw [max_eq_left h])) (not_le.mpr hbv)
        · rwa [max_eq_right h] at hle
      have hmax : max bestv (abMinP score c (dep - 1) bestv Val.posinf) =
          abMinP score c (dep - 1) bestv Val.posinf :=
        max_eq_right (le_of_lt hbv)
      rw [hmax]
      obtain ⟨ih1, ih2⟩ := ih m (abMinP score c (dep - 1) bestv Val.posinf)
      constructor
      · rw [ih1, htc]
        have hble : bestv ≤ max (mvalMin score c (dep - 1))
            (mvalMaxList score rest dep) :=
          le_trans (le_of_lt hbv)
            (le_trans (le_of_eq htc) (le_max_left _ _))
        rw [max_eq_right hble]
      · rcases ih2 with ⟨hb, hv⟩ | ⟨c2, hmem, hval⟩
        · right
          refine ⟨c, ?_, ?_⟩
          · rw [hb]
            exact List.mem_cons_self _ _
          · rw [hv, htc]
        · right
          exact ⟨c2, List.mem_cons_of_mem _ hmem, hval⟩
    · rw [if_neg hbv]
      have hwb : abMinP score c (dep - 1) bestv Val.posinf ≤ bestv :=
        not_lt.mp hbv
      have htcb : mvalMin score c (dep - 1) ≤ bestv := le_trans hge hwb
      rw [max_self]
      obtain ⟨ih1, ih2⟩ := ih best bestv
      constructor
      · rw [ih1, ← max_assoc, max_eq_left htcb]
      · rcases ih2 with ⟨hb, hv⟩ | ⟨c2, hmem, hval⟩
        · exact Or.inl ⟨hb, hv⟩
        · exact Or.inr ⟨c2, List.mem_cons_of_mem _ hmem, hval⟩

theorem abRootP_spec (score : GameTree → Val) (g : GameTree) (dep : Nat) :
    (abRootP score g dep).2 = mvalMaxList score g.children dep ∧
    ((abRootP score g dep).2 = Val.neginf ∧
      (abRootP score g dep).1 = ((-1 : Int), (-1 : Int)) ∨
     ∃ c, ((abRootP score g dep).1, c) ∈ g.children ∧
       mvalMin score c (dep - 1) = (abRootP score g dep).2) := by
  obtain ⟨h1, h2⟩ := abRootFoldP_spec score dep g.children
    ((-1 : Int), (-1 : Int)) Val.neginf
  rw [Val.max_neginf] at h1
  constructor
  · rw [abRootP]
    exact h1
  · rcases h2 with ⟨hb, hv⟩ | ⟨c2, hmem, hval⟩
    · left
      rw [abRootP]
      exact ⟨hv, hb⟩
    · right
      rw [abRootP]
      exact ⟨c2, hmem, hval⟩

theorem mmRootFoldP_spec (score : GameTree → Val) (depth : Nat) :
    ∀ (l : List (Move × GameTree)) (best : Move) (bestv : Val),
    (mmRootFoldP score depth l best bestv).2 =
      max bestv (keysMax score depth l) ∧
    ((mmRootFoldP score depth l best bestv).1 = best ∧
      (mmRootFoldP score depth l best bestv).2 = bestv ∨
     ∃ c, ((mmRootFoldP score depth l best bestv).1, c) ∈ l ∧
       mmMinP score depth c 1 = (mmRootFoldP score depth l best bestv).2) := by
  intro l
  induction l with
  | nil =>
    intro best bestv
    rw [mmRootFoldP, keysMax, Val.max_neginf_right]
    exact ⟨rfl, Or.inl ⟨rfl, rfl⟩⟩
  | cons hd rest ih =>
    obtain ⟨m, c⟩ := hd
    intro best bestv
    rw [mmRootFoldP, keysMax]
    by_cases hbv : bestv < mmMinP score depth c 1
    · rw [if_pos hbv]
      obtain ⟨ih1, ih2⟩ := ih m (mmMinP score depth c 1)
      constructor
      · rw [ih1]
        have hble : bestv ≤ max (mmMinP score depth c 1)
            (keysMax score depth rest) :=
          le_trans (le_of_lt hbv) (le_max_left _ _)
        rw [max_eq_right hble]
      · rcases ih2 with ⟨hb, hv⟩ | ⟨c2, hmem, hval⟩
        · right
          refine ⟨c, ?_, ?_⟩
          · rw [hb]
            exact List.mem_cons_self _ _
          · rw [hv]
        · right
          exact ⟨c2, List.mem_cons_of_mem _ hmem, hval⟩
    · rw [if_neg hbv]
      have hkb : mmMinP score depth c 1 ≤ bestv := not_lt.mp hbv
      obtain ⟨ih1, ih2⟩ := ih best bestv
      constructor
      · rw [ih1, ← max_assoc, max_eq_left hkb]
      · rcases ih2 with ⟨hb, hv⟩ | ⟨c2, hmem, hval⟩
        · exact Or.inl ⟨hb, hv⟩
        · exact Or.inr ⟨c2, List.mem_cons_of_mem _ hmem, hval⟩

theorem mmRootP_spec (score : GameTree → Val) (depth : Nat) (g : GameTree)
    (m : Move) (c : GameTree) (rest : List (Move × GameTree))
    (hch : g.children = (m, c) :: rest) :
    (mmRootP score depth g).2 = keysMax score depth g.children ∧
    ∃ c1, ((mmRootP score depth g).1, c1) ∈ g.children ∧
      mmMinP score depth c1 1 = (mmRootP score depth g).2 := by
  obtain ⟨h1, h2⟩ := mmRootFoldP_spec score depth rest m (mmMinP score depth c 1)
  rw [mmRootP, hch]
  constructor
  · rw [h1, keysMax]
  · rcases h2 with ⟨hb, hv⟩ | ⟨c2, hmem, hval⟩
    · refine ⟨c, ?_, ?_⟩
      · rw [hb]
        exact List.mem_cons_self _ _
      · rw [hv]
    · exact ⟨c2, List.mem_cons_of_mem _ hmem, hval⟩

theorem termConsList_mem (score : GameTree → Val) (isMax : Bool) :
    ∀ (l : List (Move × GameTree)) (m : Move) (c : GameTree),
    termConsList score isMax l = true → (m, c) ∈ l →
    termCons score isMax c = true := by
  intro l
  induction l with
  | nil =>
    intro m c _ hmem
    simp at hmem
  | cons hd rest ih =>
    obtain ⟨m1, c1⟩ := hd
    intro m c hTC hmem
    rw [termConsList] at hTC
    simp only [Bool.and_eq_true] at hTC
    rcases List.mem_cons.mp hmem with heq | hmem2
    · injection heq with hm hc
      subst hc
      exact hTC.1
    · exact ih m c hTC.2 hmem2

theorem keysMax_eq (score : GameTree → Val) (dep : Nat) (hdep : 1 ≤ dep) :
    ∀ (l : List (Move × GameTree)),
    termConsList score false l = true →
    keysMax score dep l = mvalMaxList score l dep := by
  intro l
  induction l with
  | nil =>
    intro _
    rw [keysMax, mvalMaxList]
  | cons hd rest ih =>
    obtain ⟨m, c⟩ := hd
    intro hTC
    rw [termConsList] at hTC
    simp only [Bool.and_eq_true] at hTC
    rw [keysMax, mvalMaxList, ih hTC.2,
      mmMinP_eq_mval score dep c 1 hdep hTC.1]

mutual

theorem mmMin_ample (score : GameTree → Val) (tb : Nat → ℚ) (th : ℚ)
    (depth : Nat) (hA : Ample tb th) (g : GameTree) (td t : Nat) :
    ∃ t2, mmMin score tb th depth g td t =
      .ok (mmMinP score depth g td, t2) := by
  obtain ⟨d, ch⟩ := g
  simp only [mmMin, mmMinP, checkTime, if_neg (hA t)]
  by_cases hcut : td = depth
  · rw [if_pos hcut, if_pos hcut]
    exact ⟨t + 1, rfl⟩
  · rw [if_neg hcut, if_neg hcut]
    exact mmMinFold_ample score tb th depth hA ch Val.posinf (td + 1) (t + 1)
termination_by sizeOf g

theorem mmMinFold_ample (score : GameTree → Val) (tb : Nat → ℚ) (th : ℚ)
    (depth : Nat) (hA : Ample tb th) (l : List (Move × GameTree)) (v : Val)
    (td1 t : Nat) :
    ∃ t2, mmMinFold score tb th depth l v td1 t =
      .ok (mmMinFoldP score depth l v td1, t2) := by
  cases l with
  | nil =>
    rw [mmMinFold, mmMinFoldP]
    exact ⟨t, rfl⟩
  | cons hd rest =>
    obtain ⟨m, c⟩ := hd
    simp only [mmMinFold, mmMinFoldP, checkTime, if_neg (hA t)]
    obtain ⟨t2, h⟩ := mmMax_ample score tb th depth hA c td1 (t + 1)
    simp only [h]
    exact mmMinFold_ample score tb th depth hA rest
      (min v (mmMaxP score depth c td1)) td1 t2
termination_by sizeOf l

theorem mmMax_ample (score : GameTree → Val) (tb : Nat → ℚ) (th : ℚ)
    (depth : Nat) (hA : Ample tb th) (g : GameTree) (td t : Nat) :
    ∃ t2, mmMax score tb th depth g td t =
      .ok (mmMaxP score depth g td, t2) := by
  obtain ⟨d, ch⟩ := g
  simp only [mmMax, mmMaxP, checkTime, if_neg (hA t)]
  by_cases hcut : td = depth
  · rw [if_pos hcut, if_pos hcut]
    exact ⟨t + 1, rfl⟩
  · rw [if_neg hcut, if_neg hcut]
    exact mmMaxFold_ample score tb th depth hA ch Val.neginf (td + 1) (t + 1)
termination_by sizeOf g

theorem mmMaxFold_ample (score : GameTree → Val) (tb : Nat → ℚ) (th : ℚ)
    (depth : Nat) (hA : Ample tb th) (l : List (Move × GameTree)) (v : Val)
    (td1 t : Nat) :
    ∃ t2, mmMaxFold score tb th depth l v td1 t =
      .ok (mmMaxFoldP score depth l v td1, t2) := by
  cases l with
  | nil =>
    rw [mmMaxFold, mmMaxFoldP]
    exact ⟨t, rfl⟩
  | cons hd rest =>
    obtain ⟨m, c⟩ := hd
    simp only [mmMaxFold, mmMaxFoldP, checkTime, if_neg (hA t)]
    obtain ⟨t2, h⟩ := mmMin_ample score tb th depth hA c td1 (t + 1)
    simp only [h]
    exact mmMaxFold_ample score tb th depth hA rest
      (max v (mmMinP score depth c td1)) td1 t2
termination_by sizeOf l

end

theorem mmRootFold_ample (score : GameTree → Val) (tb : Nat → ℚ) (th : ℚ)
    (depth : Nat) (hA : Ample tb th) :
    ∀ (l : List (Move × GameTree)) (best : Move) (bestv : Val) (t : Nat),
    ∃ t2, mmRootFold score tb th depth l best bestv t =
      .ok ((mmRootFoldP score depth l best bestv).1, t2) := by
  intro l
  induction l with
  | nil =>
    intro best bestv t
    rw [mmRootFold, mmRootFoldP]
    exact ⟨t, rfl⟩
  | cons hd rest ih =>
    obtain ⟨m, c⟩ := hd
    intro best bestv t
    rw [mmRootFold, mmRootFoldP]
    obtain ⟨t2, h⟩ := mmMin_ample score tb th depth hA c 1 t
    simp only [h]
    by_cases hb : bestv < mmMinP score depth c 1
    · rw [if_pos hb, if_pos hb]
      exact ih m (mmMinP score depth c 1) t2
    · rw [if_neg hb, if_neg hb]
      exact ih best bestv t2

theorem mmRoot_ample (score : GameTree → Val) (tb : Nat → ℚ) (th : ℚ)
    (depth : Nat) (hA : Ample tb th) (g : GameTree) (t : Nat) :
    ∃ t2, mmRoot score tb th depth g t =
      .ok ((mmRootP score depth g).1, t2) := by
  rw [mmRoot, mmRootP]
  cases hch : g.children with
  | nil => exact ⟨t, rfl⟩
  | cons hd rest =>
    obtain ⟨m, c⟩ := hd
    obtain ⟨t2, h⟩ := mmMin_ample score tb th depth hA c 1 t
    simp only [h]
    exact mmRootFold_ample score tb th depth hA rest m
      (mmMinP score depth c 1) t2

mutual

theorem abMin_ample (score : GameTree → Val) (tb : Nat → ℚ) (th : ℚ)
    (hA : Ample tb th) (g : GameTree) (dep : Nat) (a b : Val) (t : Nat) :
    ∃ t2, abMin score tb th g dep a b t =
      .ok (abMinP score g dep a b, t2) := by
  obtain ⟨d, ch⟩ := g
  simp only [abMin, abMinP, checkTime, if_neg (hA t)]
  by_cases hcut : dep = 0 ∨ ch.isEmpty = true
  · rw [if_pos hcut, if_pos hcut]
    exact ⟨t + 1, rfl⟩
  · rw [if_neg hcut, if_neg hcut]
    exact abMinFold_ample score tb th hA ch dep Val.posinf a b (t + 1)
termination_by sizeOf g

theorem abMinFold_ample (score : GameTree → Val) (tb : Nat → ℚ) (th : ℚ)
    (hA : Ample tb th) (l : List (Move × GameTree)) (dep : Nat) (v a b : Val)
    (t : Nat) :
    ∃ t2, abMinFold score tb th l dep v a b t =
      .ok (abMinFoldP score l dep v a b, t2) := by
  cases l with
  | nil =>
    rw [abMinFold, abMinFoldP]
    exact ⟨t, rfl⟩
  | cons hd rest =>
    obtain ⟨m, c⟩ := hd
    rw [abMinFold, abMinFoldP]
    obtain ⟨t2, h⟩ := abMax_ample score tb th hA c (dep - 1) a b t
    simp only [h]
    by_cases hp : min v (abMaxP score c (dep - 1) a b) ≤ a
    · rw [if_pos hp, if_pos hp]
      exact ⟨t2, rfl⟩
    · rw [if_neg hp, if_neg hp]
      exact abMinFold_ample score tb th hA rest dep
        (min v (abMaxP score c (dep - 1) a b)) a
        (min b (min v (abMaxP score c (dep - 1) a b))) t2
termination_by sizeOf l

theorem abMax_ample (score : GameTree → Val) (tb : Nat → ℚ) (th : ℚ)
    (hA : Ample tb th) (g : GameTree) (dep : Nat) (a b : Val) (t : Nat) :
    ∃ t2, abMax score tb th g dep a b t =
      .ok (abMaxP score g dep a b, t2) := by
  obtain ⟨d, ch⟩ := g
  simp only [abMax, abMaxP, checkTime, if_neg (hA t)]
  by_cases hcut : dep = 0 ∨ ch.isEmpty = true
  · rw [if_pos hcut, if_pos hcut]
    exact ⟨t + 1, rfl⟩
  · rw [if_neg hcut, if_neg hcut]
    exact abMaxFold_ample score tb th hA ch dep Val.neginf a b (t + 1)
termination_by sizeOf g

theorem abMaxFold_ample (score : GameTree → Val) (tb : Nat → ℚ) (th : ℚ)
    (hA : Ample tb th) (l : List (Move × GameTree)) (dep : Nat) (v a b : Val)
    (t : Nat) :
    ∃ t2, abMaxFold score tb th l dep v a b t =
      .ok (abMaxFoldP score l dep v a b, t2) := by
  cases l with
  | nil =>
    rw [abMaxFold, abMaxFoldP]
    exact ⟨t, rfl⟩
  | cons hd rest =>
    obtain ⟨m, c⟩ := hd
    rw [abMaxFold, abMaxFoldP]
    obtain ⟨t2, h⟩ := abMin_ample score tb th hA c (dep - 1) a b t
    simp only [h]
    by_cases hp : b ≤ max v (abMinP score c (dep - 1) a b)
    · rw [if_pos hp, if_pos hp]
      exact ⟨t2, rfl⟩
    · rw [if_neg hp, if_neg hp]
      exact abMaxFold_ample score tb th hA rest dep
        (max v (abMinP score c (dep - 1) a b))
        (max a (max v (abMinP score c (dep - 1) a b))) b t2
termination_by sizeOf l

end

theorem abRootFold_ample (score : GameTree → Val) (tb : Nat → ℚ) (th : ℚ)
    (hA : Ample tb th) :
    ∀ (l : List (Move × GameTree)) (dep : Nat) (best : Move) (bestv a b : Val)
      (t : Nat),
    ∃ t2, abRootFold score tb th l dep best bestv a b t =
      .ok ((abRootFoldP score l dep best bestv a b).1, t2) := by
  intro l
  induction l with
  | nil =>
    intro dep best bestv a b t
    rw [abRootFold, abRootFoldP]
    exact ⟨t, rfl⟩
  | cons hd rest ih =>
    obtain ⟨m, c⟩ := hd
    intro dep best bestv a b t
    rw [abRootFold, abRootFoldP]
    obtain ⟨t2, h⟩ := abMin_ample score tb th hA c (dep - 1) a b t
    simp only [h]
    by_cases hb : bestv < abMinP score c (dep - 1) a b
    · rw [if_pos hb, if_pos hb]
      exact ih dep m (abMinP score c (dep - 1) a b)
        (max a (abMinP score c (dep - 1) a b)) b t2
    · rw [if_neg hb, if_neg hb]
      exact ih dep best bestv (max a bestv) b t2

theorem abRoot_ample (score : GameTree → Val) (tb : Nat → ℚ) (th : ℚ)
    (hA : Ample tb th) (g : GameTree) (dep : Nat) (t : Nat) :
    ∃ t2, abRoot score tb th g dep t =
      .ok ((abRootP score g dep).1, t2) := by
  rw [abRoot, abRootP]
  exact abRootFold_ample score tb th hA g.children dep
    ((-1 : Int), (-1 : Int)) Val.neginf Val.neginf Val.posinf t

/-- Claim C4: with an ample time budget (no timeout fires), a strictly
positive depth, at least one legal move, and an evaluation strategy
that recognises won/lost states (spec §4.2's contract on strategies,
expressed by `termCons`), `MinimaxPlayer.minimax` and
`AlphaBetaPlayer.alphabeta` at the same depth select moves with
identical backed-up minimax value: minimax's selected move is a legal
move whose backed-up key equals the root value `keysMax`, alpha-beta's
internal `best_val` equals that same root value, and — whenever the
root value is not `-inf` — alpha-beta's selected move is likewise a
legal move whose minimax backed-up key equals that value.  Pruning
changes only the work done, not the backed-up result. -/
theorem claim_C4 (score : GameTree → Val) (tb : Nat → ℚ) (th : ℚ)
    (g : GameTree) (dep : Nat) (m : Move) (c : GameTree)
    (rest : List (Move × GameTree))
    (hA : Ample tb th) (hdep : 1 ≤ dep) (hch : g.children = (m, c) :: rest)
    (hTC : termCons score true g = true) :
    ∃ m1 m2 t1 t2,
      mmRoot score tb th dep g 0 = .ok (m1, t1) ∧
      abRoot score tb th g dep 0 = .ok (m2, t2) ∧
      (abRootP score g dep).2 = keysMax score dep g.children ∧
      (∃ c1, (m1, c1) ∈ g.children ∧
        mmMinP score dep c1 1 = keysMax score dep g.children) ∧
      (keysMax score dep g.children ≠ Val.neginf →
        ∃ c2, (m2, c2) ∈ g.children ∧
          mmMinP score dep c2 1 = keysMax score dep g.children) := by
  have hTCL : termConsList score false g.children = true := by
    revert hTC hch
    obtain ⟨d, ch⟩ := g
    intro hch hTC
    rw [termCons] at hTC
    simp only [Bool.and_eq_true, Bool.not_true] at hTC
    exact hTC.2
  obtain ⟨t1, hmmr⟩ := mmRoot_ample score tb th dep hA g 0
  obtain ⟨t2, habr⟩ := abRoot_ample score tb th hA g dep 0
  obtain ⟨hspec1, c1, hmem1, hval1⟩ := mmRootP_spec score dep g m c rest hch
  obtain ⟨habs1, habs2⟩ := abRootP_spec score g dep
  have hkeys : keysMax score dep g.children =
      mvalMaxList score g.children dep :=
    keysMax_eq score dep hdep g.children hTCL
  refine ⟨(mmRootP score dep g).1, (abRootP score g dep).1, t1, t2, hmmr,
    habr, ?_, ?_, ?_⟩
  · rw [habs1, hkeys]
  · exact ⟨c1, hmem1, by rw [hval1, hspec1]⟩
  · intro hne
    rcases habs2 with ⟨hv, hb⟩ | ⟨c2, hmem2, hval2⟩
    · exact absurd (by rw [hkeys, ← habs1, hv]) hne
    · refine ⟨c2, hmem2, ?_⟩
      have hc2TC : termCons score false c2 = true :=
        termConsList_mem score false g.children _ c2 hTCL hmem2
      rw [mmMinP_eq_mval score dep c2 1 hdep hc2TC, hval2, habs1, hkeys]

/-- Claim C4, witness: a concrete depth-1 search on a two-move state
with a terminal-consistent strategy. -/
theorem claim_C4_witness :
    Ample tbAmple 10 ∧ (1 : Nat) ≤ 1 ∧
    treeC4R.children = (((0 : Int), (1 : Int)), treeC4A) ::
      [(((0 : Int), (2 : Int)), treeC4B)] ∧
    termCons scoreC4 true treeC4R = true ∧
    (∃ m1 m2 t1 t2,
      mmRoot scoreC4 tbAmple 10 1 treeC4R 0 = .ok (m1, t1) ∧
      abRoot scoreC4 tbAmple 10 treeC4R 1 0 = .ok (m2, t2) ∧
      (abRootP scoreC4 treeC4R 1).2 = keysMax scoreC4 1 treeC4R.children ∧
      (∃ c1, (m1, c1) ∈ treeC4R.children ∧
        mmMinP scoreC4 1 c1 1 = keysMax scoreC4 1 treeC4R.children) ∧
      (keysMax scoreC4 1 treeC4R.children ≠ Val.neginf →
        ∃ c2, (m2, c2) ∈ treeC4R.children ∧
          mmMinP scoreC4 1 c2 1 = keysMax scoreC4 1 treeC4R.children)) := by
  have hA : Ample tbAmple 10 := by
    intro t
    norm_num [tbAmple]
  have hch : treeC4R.children = (((0 : Int), (1 : Int)), treeC4A) ::
      [(((0 : Int), (2 : Int)), treeC4B)] := rfl
  have hTC : termCons scoreC4 true treeC4R = true := by
    simp [termCons, termConsList, scoreC4, treeC4R, treeC4A, treeC4B, treeC4L,
      GameTree.children]
  exact ⟨hA, le_refl 1, hch, hTC,
    claim_C4 scoreC4 tbAmple 10 treeC4R 1 ((0 : Int), (1 : Int)) treeC4A
      [(((0 : Int), (2 : Int)), treeC4B)] hA (le_refl 1) hch hTC⟩
